import Mathlib

set_option maxRecDepth 40000

/-!
Verification of the hybrid adaptive binarizer (zxing `HybridBinarizer`).

The repository ships only the header `HybridBinarizer.h`, which declares
`getBlackMatrix`, `binarizeEntireImage`, `calculateBlackPoints`,
`calculateThresholdForBlock`, `threshold8x8Block` and the cache fields
`cached_matrix_` / `cached_row_` / `cached_row_num_`.  The implementation
file is absent, so the bodies of those operations are modelled here from
the specification's own description of the algorithm (sections 3, 4.1-4.5).
All arithmetic is on `Nat`, matching the spec's "non-negative integer"
numeric semantics; integer division is Lean's `Nat` division (truncation).
-/

/-- Modelled from the spec: the read-only luminance plane supplied by the
external `LuminanceSource` (missing implementation; only declared in the
header).  Samples are indexed by `(x, y)`; row stride equals the width. -/
structure Plane where
  width : Nat
  height : Nat
  lum : Nat → Nat → Nat

/-- Modelled from the spec: the block size constant, `BS = 8`. -/
def BLOCK_SIZE : Nat := 8

/-- Modelled from the spec: `MIN_DYNAMIC_RANGE = 24`, the dynamic-range
cutoff below which a block counts as degenerate. -/
def MIN_DYNAMIC_RANGE : Nat := 24

/-- Modelled from the spec: `MIN_DIMENSION = 40`, the gate below which the
adaptive 2D path is not used. -/
def MIN_DIMENSION : Nat := 40

/-- Modelled from the spec: the x anchor of block column `bx`, clamped so
edge blocks overlap rather than truncate: `min(bx*BS, W - BS)`. -/
def anchorX (p : Plane) (bx : Nat) : Nat := min (bx * 8) (p.width - 8)

/-- Modelled from the spec: the y anchor of block row `byv`:
`min(byv*BS, H - BS)`. -/
def anchorY (p : Plane) (byv : Nat) : Nat := min (byv * 8) (p.height - 8)

/-- Modelled from the spec: `subW = ceil(W / BS)`. -/
def subWidth (p : Plane) : Nat := (p.width + 7) / 8

/-- Modelled from the spec: `subH = ceil(H / BS)`. -/
def subHeight (p : Plane) : Nat := (p.height + 7) / 8

/-- Modelled from the spec: the 64 = 8x8 luminance samples of the block
anchored at `(anchorX bx, anchorY byv)`, row by row. -/
def blockSamples (p : Plane) (bx byv : Nat) : List Nat :=
  (List.range 8).flatMap (fun yy =>
    (List.range 8).map (fun xx => p.lum (anchorX p bx + xx) (anchorY p byv + yy)))

/-- Minimum of a list of naturals (the block sample lists are never empty). -/
def listMin : List Nat → Nat
  | [] => 0
  | h :: t => t.foldl min h

/-- Maximum of a list of naturals. -/
def listMax : List Nat → Nat
  | [] => 0
  | h :: t => t.foldl max h

/-- Modelled from the spec: the running `sum` of the block sweep. -/
def blockSum (p : Plane) (bx byv : Nat) : Nat := (blockSamples p bx byv).sum

/-- Modelled from the spec: the running `min` of the block sweep. -/
def blockMin (p : Plane) (bx byv : Nat) : Nat := listMin (blockSamples p bx byv)

/-- Modelled from the spec: the running `max` of the block sweep. -/
def blockMax (p : Plane) (bx byv : Nat) : Nat := listMax (blockSamples p bx byv)

/-- Modelled from the spec: the black point of a block when no neighbor
override applies: the mean `sum/64` when `max - min > MIN_DYNAMIC_RANGE`,
otherwise the degenerate default `min / 2`. -/
def plainBlackPoint (p : Plane) (bx byv : Nat) : Nat :=
  if MIN_DYNAMIC_RANGE < blockMax p bx byv - blockMin p bx byv then
    blockSum p bx byv / 64
  else
    blockMin p bx byv / 2

/-- Modelled from the spec: black points of one block row `byv ≥ 1`, given
the finalized previous row as `prev`.  At `bx = 0` the override cannot
apply; at `bx ≥ 1` a degenerate block adopts
`(bp[bx-1,byv] + 2*bp[bx,byv-1] + bp[bx-1,byv-1]) / 4` when its `min` is
below that average. -/
def rowBlackPoint (p : Plane) (byv : Nat) (prev : Nat → Nat) : Nat → Nat
  | 0 => plainBlackPoint p 0 byv
  | bx + 1 =>
    if MIN_DYNAMIC_RANGE < blockMax p (bx + 1) byv - blockMin p (bx + 1) byv then
      blockSum p (bx + 1) byv / 64
    else
      let avg := (rowBlackPoint p byv prev bx + 2 * prev (bx + 1) + prev bx) / 4
      if blockMin p (bx + 1) byv < avg then avg else blockMin p (bx + 1) byv / 2

/-- Modelled from the spec: the black-point map built row-major (missing
`calculateBlackPoints` body).  Row 0 has no finalized upper neighbors, so
only the plain rule applies there. -/
def blackPointRow (p : Plane) : Nat → Nat → Nat
  | 0 => fun bx => plainBlackPoint p bx 0
  | byv + 1 => rowBlackPoint p (byv + 1) (blackPointRow p byv)

/-- The finalized black point of block `(bx, byv)`. -/
def blackPoint (p : Plane) (bx byv : Nat) : Nat := blackPointRow p byv bx

/-- C1: for a degenerate block (window `max - min ≤ 24`) on the adaptive
path, the black point is `min/2` by default; when `bx > 0` and `byv > 0`
it is `averageNeighborBlackPoint = (bp[bx-1,byv] + 2*bp[bx,byv-1]
+ bp[bx-1,byv-1]) / 4` exactly when `min < averageNeighborBlackPoint`,
and `min/2` otherwise. -/
theorem blackPoint_degenerate (p : Plane) (bx byv : Nat)
    (hW : 40 ≤ p.width) (hH : 40 ≤ p.height)
    (hr : blockMax p bx byv - blockMin p bx byv ≤ MIN_DYNAMIC_RANGE) :
    ((bx = 0 ∨ byv = 0) → blackPoint p bx byv = blockMin p bx byv / 2) ∧
    (0 < bx → 0 < byv →
      blackPoint p bx byv =
        if blockMin p bx byv <
            (blackPoint p (bx - 1) byv + 2 * blackPoint p bx (byv - 1) +
              blackPoint p (bx - 1) (byv - 1)) / 4 then
          (blackPoint p (bx - 1) byv + 2 * blackPoint p bx (byv - 1) +
            blackPoint p (bx - 1) (byv - 1)) / 4
        else blockMin p bx byv / 2) := by
  have hnot : ¬ MIN_DYNAMIC_RANGE < blockMax p bx byv - blockMin p bx byv := by omega
  constructor
  · rintro (rfl | rfl)
    · cases byv with
      | zero =>
        simp [blackPoint, blackPointRow, plainBlackPoint, hnot]
      | succ b =>
        simp [blackPoint, blackPointRow, rowBlackPoint, plainBlackPoint, hnot]
    · cases bx with
      | zero =>
        simp [blackPoint, blackPointRow, plainBlackPoint, hnot]
      | succ a =>
        simp [blackPoint, blackPointRow, plainBlackPoint, hnot]
  · intro hbx hby
    cases bx with
    | zero => omega
    | succ a =>
      cases byv with
      | zero => omega
      | succ b =>
        show blackPointRow p (b + 1) (a + 1) = _
        simp only [blackPointRow, rowBlackPoint, if_neg hnot, Nat.add_sub_cancel,
          blackPoint]

/-- Witness for C1: a 40x40 constant-zero plane; block (1,1) is degenerate. -/
theorem blackPoint_degenerate_witness :
    (40 ≤ Plane.width ⟨40, 40, fun _ _ => 0⟩ ∧ 40 ≤ Plane.height ⟨40, 40, fun _ _ => 0⟩ ∧
      blockMax ⟨40, 40, fun _ _ => 0⟩ 1 1 - blockMin ⟨40, 40, fun _ _ => 0⟩ 1 1 ≤
        MIN_DYNAMIC_RANGE) ∧
    (((1 = 0 ∨ 1 = 0) →
        blackPoint ⟨40, 40, fun _ _ => 0⟩ 1 1 = blockMin ⟨40, 40, fun _ _ => 0⟩ 1 1 / 2) ∧
      (0 < 1 → 0 < 1 →
        blackPoint ⟨40, 40, fun _ _ => 0⟩ 1 1 =
          if blockMin ⟨40, 40, fun _ _ => 0⟩ 1 1 <
              (blackPoint ⟨40, 40, fun _ _ => 0⟩ 0 1 +
                2 * blackPoint ⟨40, 40, fun _ _ => 0⟩ 1 0 +
                blackPoint ⟨40, 40, fun _ _ => 0⟩ 0 0) / 4 then
            (blackPoint ⟨40, 40, fun _ _ => 0⟩ 0 1 +
              2 * blackPoint ⟨40, 40, fun _ _ => 0⟩ 1 0 +
              blackPoint ⟨40, 40, fun _ _ => 0⟩ 0 0) / 4
          else blockMin ⟨40, 40, fun _ _ => 0⟩ 1 1 / 2)) :=
  ⟨⟨by decide, by decide, by decide⟩,
    blackPoint_degenerate ⟨40, 40, fun _ _ => 0⟩ 1 1 (by decide) (by decide) (by decide)⟩

/-- C2: on the adaptive path, a block whose window has
`max - min > MIN_DYNAMIC_RANGE = 24` gets black point equal to the integer
mean `sum / 64` of its 64 luminance samples. -/
theorem blackPoint_dynamicRange (p : Plane) (bx byv : Nat)
    (hr : MIN_DYNAMIC_RANGE < blockMax p bx byv - blockMin p bx byv) :
    (blockSamples p bx byv).length = 64 ∧
    blackPoint p bx byv = (blockSamples p bx byv).sum / 64 := by
  refine ⟨rfl, ?_⟩
  cases byv with
  | zero =>
    cases bx with
    | zero => simp [blackPoint, blackPointRow, plainBlackPoint, hr, blockSum]
    | succ a => simp [blackPoint, blackPointRow, plainBlackPoint, hr, blockSum]
  | succ b =>
    cases bx with
    | zero => simp [blackPoint, blackPointRow, rowBlackPoint, plainBlackPoint, hr, blockSum]
    | succ a => simp [blackPoint, blackPointRow, rowBlackPoint, hr, blockSum]

/-- Witness for C2: a 40x40 plane alternating 0 and 255 by column; block
(0,0) has dynamic range 255 > 24. -/
theorem blackPoint_dynamicRange_witness :
    MIN_DYNAMIC_RANGE <
      blockMax ⟨40, 40, fun x _ => if x % 2 = 0 then 0 else 255⟩ 0 0 -
        blockMin ⟨40, 40, fun x _ => if x % 2 = 0 then 0 else 255⟩ 0 0 ∧
    ((blockSamples ⟨40, 40, fun x _ => if x % 2 = 0 then 0 else 255⟩ 0 0).length = 64 ∧
      blackPoint ⟨40, 40, fun x _ => if x % 2 = 0 then 0 else 255⟩ 0 0 =
        (blockSamples ⟨40, 40, fun x _ => if x % 2 = 0 then 0 else 255⟩ 0 0).sum / 64) :=
  ⟨by decide,
    blackPoint_dynamicRange ⟨40, 40, fun x _ => if x % 2 = 0 then 0 else 255⟩ 0 0 (by decide)⟩

/-- Modelled from the spec: `clamp(v, lo, hi)` as used for the smoothing
window position, `min (max v lo) hi`. -/
def clampN (v lo hi : Nat) : Nat := min (max v lo) hi

/-- Modelled from the spec: the 25 black points of the 5x5 smoothing window
whose top-left block is `(left - 2, top - 2)`. -/
def windowPoints (p : Plane) (left top : Nat) : List Nat :=
  (List.range 5).flatMap (fun dy =>
    (List.range 5).map (fun dx => blackPoint p (left - 2 + dx) (top - 2 + dy)))

/-- Modelled from the spec: the smoothed threshold at a clamped window
center `(left, top)`: sum of the 25 window black points divided by 25. -/
def thresholdAt (p : Plane) (left top : Nat) : Nat :=
  (windowPoints p left top).sum / 25

/-- Modelled from the spec: the smoothed threshold used for block
`(bx, byv)` (missing `calculateThresholdForBlock` body), with
`left = clamp(bx, 2, subW - 3)` and `top = clamp(byv, 2, subH - 3)`. -/
def thresholdForBlock (p : Plane) (bx byv : Nat) : Nat :=
  thresholdAt p (clampN bx 2 (subWidth p - 3)) (clampN byv 2 (subHeight p - 3))

/-- Modelled from the spec: `threshold8x8Block` (missing body) writes the
8x8 block of bits anchored at `(xoff, yoff)`: inside the window the bit
becomes `luminance(x, y) ≤ threshold`, outside it the matrix is unchanged.
The matrix is a total bit map `Nat → Nat → Bool`; the plane is read-only. -/
def threshold8x8Block (p : Plane) (xoff yoff threshold : Nat)
    (m : Nat → Nat → Bool) : Nat → Nat → Bool :=
  fun x y =>
    if xoff ≤ x ∧ x < xoff + 8 ∧ yoff ≤ y ∧ y < yoff + 8 then
      decide (p.lum x y ≤ threshold)
    else m x y

/-- One step of the block sweep: binarize block `q = (bx, byv)` into `m`. -/
def blockStep (p : Plane) (m : Nat → Nat → Bool) (q : Nat × Nat) :
    Nat → Nat → Bool :=
  threshold8x8Block p (anchorX p q.1) (anchorY p q.2)
    (thresholdForBlock p q.1 q.2) m

/-- All blocks of the grid, row-major. -/
def blockList (p : Plane) : List (Nat × Nat) :=
  (List.range (subHeight p)).flatMap (fun byv =>
    (List.range (subWidth p)).map (fun bx => (bx, byv)))

/-- Modelled from the spec: `binarizeEntireImage`'s adaptive pass (missing
body): sweep every block and threshold it, starting from an all-clear
matrix. -/
def binarizeEntireImage (p : Plane) : Nat → Nat → Bool :=
  (blockList p).foldl (blockStep p) (fun _ _ => false)

/-- Pixel `(x, y)` lies in the 8x8 window of block `q`. -/
def covers (p : Plane) (q : Nat × Nat) (x y : Nat) : Prop :=
  anchorX p q.1 ≤ x ∧ x < anchorX p q.1 + 8 ∧
    anchorY p q.2 ≤ y ∧ y < anchorY p q.2 + 8

/-- C3: the threshold for block `(bx, byv)` is the sum of the 25 black
points over `[left-2, left+2] x [top-2, top+2]` divided by 25, with
`left = clamp(bx, 2, subW-3)`, `top = clamp(byv, 2, subH-3)`; in
particular on the adaptive path the threshold for block `(0,0)` is the
average of the black points over `[0..4] x [0..4]`. -/
theorem thresholdForBlock_eq (p : Plane) (bx byv : Nat)
    (hW : 40 ≤ p.width) (hH : 40 ≤ p.height) :
    thresholdForBlock p bx byv =
      ((List.range 5).flatMap (fun dy =>
        (List.range 5).map (fun dx =>
          blackPoint p (clampN bx 2 (subWidth p - 3) - 2 + dx)
            (clampN byv 2 (subHeight p - 3) - 2 + dy)))).sum / 25 ∧
    thresholdForBlock p 0 0 =
      ((List.range 5).flatMap (fun dy =>
        (List.range 5).map (fun dx => blackPoint p dx dy))).sum / 25 := by
  constructor
  · rfl
  · have hsw : 5 ≤ subWidth p := by unfold subWidth; omega
    have hsh : 5 ≤ subHeight p := by unfold subHeight; omega
    have hl : clampN 0 2 (subWidth p - 3) = 2 := by unfold clampN; omega
    have ht : clampN 0 2 (subHeight p - 3) = 2 := by unfold clampN; omega
    unfold thresholdForBlock thresholdAt windowPoints
    rw [hl, ht]
    simp

/-- Witness for C3 on a 40x40 constant plane. -/
theorem thresholdForBlock_eq_witness :
    (40 ≤ Plane.width ⟨40, 40, fun _ _ => 7⟩ ∧ 40 ≤ Plane.height ⟨40, 40, fun _ _ => 7⟩) ∧
    (thresholdForBlock ⟨40, 40, fun _ _ => 7⟩ 1 2 =
      ((List.range 5).flatMap (fun dy =>
        (List.range 5).map (fun dx =>
          blackPoint ⟨40, 40, fun _ _ => 7⟩
            (clampN 1 2 (subWidth ⟨40, 40, fun _ _ => 7⟩ - 3) - 2 + dx)
            (clampN 2 2 (subHeight ⟨40, 40, fun _ _ => 7⟩ - 3) - 2 + dy)))).sum / 25 ∧
    thresholdForBlock ⟨40, 40, fun _ _ => 7⟩ 0 0 =
      ((List.range 5).flatMap (fun dy =>
        (List.range 5).map (fun dx =>
          blackPoint ⟨40, 40, fun _ _ => 7⟩ dx dy))).sum / 25) :=
  ⟨⟨by decide, by decide⟩,
    thresholdForBlock_eq ⟨40, 40, fun _ _ => 7⟩ 1 2 (by decide) (by decide)⟩

/-- C4: a pixel inside the processed block with smoothed threshold
`thresholdForBlock p bx byv` is emitted black (bit true) exactly when its
luminance is at most the threshold; equality at the threshold yields
black. -/
theorem pixel_black_iff_le (p : Plane) (bx byv x y : Nat)
    (m : Nat → Nat → Bool)
    (hx1 : anchorX p bx ≤ x) (hx2 : x < anchorX p bx + 8)
    (hy1 : anchorY p byv ≤ y) (hy2 : y < anchorY p byv + 8) :
    (threshold8x8Block p (anchorX p bx) (anchorY p byv)
        (thresholdForBlock p bx byv) m x y = true ↔
      p.lum x y ≤ thresholdForBlock p bx byv) ∧
    (p.lum x y = thresholdForBlock p bx byv →
      threshold8x8Block p (anchorX p bx) (anchorY p byv)
        (thresholdForBlock p bx byv) m x y = true) := by
  constructor
  · simp [threshold8x8Block, hx1, hx2, hy1, hy2]
  · intro he
    simp [threshold8x8Block, hx1, hx2, hy1, hy2, he]

/-- Witness for C4: pixel (3, 4) of block (0, 0) on a 40x40 plane. -/
theorem pixel_black_iff_le_witness :
    (anchorX ⟨40, 40, fun _ _ => 0⟩ 0 ≤ 3 ∧ 3 < anchorX ⟨40, 40, fun _ _ => 0⟩ 0 + 8 ∧
      anchorY ⟨40, 40, fun _ _ => 0⟩ 0 ≤ 4 ∧ 4 < anchorY ⟨40, 40, fun _ _ => 0⟩ 0 + 8) ∧
    ((threshold8x8Block ⟨40, 40, fun _ _ => 0⟩ (anchorX ⟨40, 40, fun _ _ => 0⟩ 0)
        (anchorY ⟨40, 40, fun _ _ => 0⟩ 0)
        (thresholdForBlock ⟨40, 40, fun _ _ => 0⟩ 0 0) (fun _ _ => false) 3 4 = true ↔
      Plane.lum ⟨40, 40, fun _ _ => 0⟩ 3 4 ≤ thresholdForBlock ⟨40, 40, fun _ _ => 0⟩ 0 0) ∧
    (Plane.lum ⟨40, 40, fun _ _ => 0⟩ 3 4 = thresholdForBlock ⟨40, 40, fun _ _ => 0⟩ 0 0 →
      threshold8x8Block ⟨40, 40, fun _ _ => 0⟩ (anchorX ⟨40, 40, fun _ _ => 0⟩ 0)
        (anchorY ⟨40, 40, fun _ _ => 0⟩ 0)
        (thresholdForBlock ⟨40, 40, fun _ _ => 0⟩ 0 0) (fun _ _ => false) 3 4 = true)) :=
  ⟨⟨by decide, by decide, by decide, by decide⟩,
    pixel_black_iff_le ⟨40, 40, fun _ _ => 0⟩ 0 0 3 4 (fun _ _ => false)
      (by decide) (by decide) (by decide) (by decide)⟩

/-- C10: `threshold8x8Block` leaves every matrix bit outside the 8x8
window `[xoff, xoff+8) x [yoff, yoff+8)` unchanged; the model is a pure
function of the plane, which is never written. -/
theorem threshold8x8Block_frame (p : Plane) (xoff yoff threshold x y : Nat)
    (m : Nat → Nat → Bool)
    (h : ¬ (xoff ≤ x ∧ x < xoff + 8 ∧ yoff ≤ y ∧ y < yoff + 8)) :
    threshold8x8Block p xoff yoff threshold m x y = m x y := by
  simp [threshold8x8Block, h]

/-- Witness for C10: pixel (20, 1) is outside the window anchored at
(0, 0). -/
theorem threshold8x8Block_frame_witness :
    ¬ (0 ≤ 20 ∧ 20 < 0 + 8 ∧ 0 ≤ 1 ∧ 1 < 0 + 8) ∧
    threshold8x8Block ⟨40, 40, fun _ _ => 0⟩ 0 0 5 (fun x y => x = y) 20 1 =
      (fun x y : Nat => decide (x = y)) 20 1 :=
  ⟨by decide,
    threshold8x8Block_frame ⟨40, 40, fun _ _ => 0⟩ 0 0 5 20 1
      (fun x y => x = y) (by decide)⟩

/-- A sweep over blocks none of which covers `(x, y)` leaves that bit of
the matrix unchanged. -/
theorem foldl_blockStep_no_cover (p : Plane) (L : List (Nat × Nat)) (x y : Nat) :
    ∀ m : Nat → Nat → Bool, (∀ q ∈ L, ¬ covers p q x y) →
      L.foldl (blockStep p) m x y = m x y := by
  induction L with
  | nil => intro m _; rfl
  | cons a t ih =>
    intro m h
    rw [List.foldl_cons, ih _ (fun q hq => h q (List.mem_cons_of_mem a hq))]
    have ha := h a (List.mem_cons_self a t)
    show threshold8x8Block p (anchorX p a.1) (anchorY p a.2)
      (thresholdForBlock p a.1 a.2) m x y = m x y
    unfold threshold8x8Block
    unfold covers at ha
    rw [if_neg ha]

/-- If every block of the sweep that covers `(x, y)` writes the same bit
`b` there, and some block covers `(x, y)`, the sweep ends with bit `b`. -/
theorem foldl_blockStep_write (p : Plane) (L : List (Nat × Nat)) (x y : Nat) (b : Bool)
    (hall : ∀ q ∈ L, covers p q x y →
      decide (p.lum x y ≤ thresholdForBlock p q.1 q.2) = b) :
    ∀ m : Nat → Nat → Bool, (∃ q ∈ L, covers p q x y) →
      L.foldl (blockStep p) m x y = b := by
  induction L with
  | nil =>
    rintro m ⟨q, hq, _⟩
    cases hq
  | cons a t ih =>
    intro m hex
    rw [List.foldl_cons]
    by_cases hct : ∃ q ∈ t, covers p q x y
    · exact ih (fun q hq hc => hall q (List.mem_cons_of_mem a hq) hc) _ hct
    · obtain ⟨q, hq, hc⟩ := hex
      rcases List.mem_cons.mp hq with rfl | hqt
      · rw [foldl_blockStep_no_cover p t x y _ (fun r hr hcr => hct ⟨r, hr, hcr⟩)]
        have hc' := hc
        unfold covers at hc'
        show threshold8x8Block p (anchorX p q.1) (anchorY p q.2)
          (thresholdForBlock p q.1 q.2) m x y = b
        unfold threshold8x8Block
        rw [if_pos hc']
        exact hall q (List.mem_cons_self q t) hc
      · exact absurd ⟨q, hqt, hc⟩ hct

/-- Membership in the row-major block list is exactly grid validity. -/
theorem mem_blockList (p : Plane) (q : Nat × Nat) :
    q ∈ blockList p ↔ q.1 < subWidth p ∧ q.2 < subHeight p := by
  simp only [blockList, List.mem_flatMap, List.mem_map, List.mem_range]
  constructor
  · rintro ⟨a, ha, b, hb, rfl⟩
    exact ⟨hb, ha⟩
  · rintro ⟨h1, h2⟩
    exact ⟨q.2, h2, q.1, h1, Prod.mk.eta⟩

/-- Two valid block columns whose 8-pixel x windows share a pixel get the
same clamped smoothing column. -/
theorem clamp_eq_of_overlap (W b1 b2 x : Nat) (hW : 40 ≤ W)
    (h1 : b1 < (W + 7) / 8) (h2 : b2 < (W + 7) / 8)
    (c1a : min (b1 * 8) (W - 8) ≤ x) (c1b : x < min (b1 * 8) (W - 8) + 8)
    (c2a : min (b2 * 8) (W - 8) ≤ x) (c2b : x < min (b2 * 8) (W - 8) + 8) :
    min (max b1 2) ((W + 7) / 8 - 3) = min (max b2 2) ((W + 7) / 8 - 3) := by
  omega

/-- Two valid blocks covering the same pixel produce the same smoothed
threshold (so overlap writes agree). -/
theorem threshold_eq_of_covers (p : Plane) (hW : 40 ≤ p.width) (hH : 40 ≤ p.height)
    (q1 q2 : Nat × Nat)
    (h1x : q1.1 < subWidth p) (h1y : q1.2 < subHeight p)
    (h2x : q2.1 < subWidth p) (h2y : q2.2 < subHeight p)
    (x y : Nat) (hc1 : covers p q1 x y) (hc2 : covers p q2 x y) :
    thresholdForBlock p q1.1 q1.2 = thresholdForBlock p q2.1 q2.2 := by
  unfold covers anchorX anchorY at hc1 hc2
  unfold subWidth at h1x h2x
  unfold subHeight at h1y h2y
  obtain ⟨hA, hB, hC, hD⟩ := hc1
  obtain ⟨hE, hF, hG, hI⟩ := hc2
  unfold thresholdForBlock clampN subWidth subHeight
  rw [clamp_eq_of_overlap p.width q1.1 q2.1 x hW h1x h2x hA hB hE hF,
    clamp_eq_of_overlap p.height q1.2 q2.2 y hH h1y h2y hC hD hG hI]

/-- Every in-range pixel is covered by some valid block. -/
theorem covers_exists (p : Plane) (x y : Nat) (hW : 40 ≤ p.width) (hH : 40 ≤ p.height)
    (hx : x < p.width) (hy : y < p.height) :
    ∃ q : Nat × Nat, q.1 < subWidth p ∧ q.2 < subHeight p ∧ covers p q x y := by
  refine ⟨(min (x / 8) (subWidth p - 1), min (y / 8) (subHeight p - 1)), ?_, ?_, ?_⟩
  · unfold subWidth
    omega
  · unfold subHeight
    omega
  · unfold covers anchorX anchorY subWidth subHeight
    refine ⟨?_, ?_, ?_, ?_⟩ <;> omega

/-- C5: every block of the grid is an exact 8x8 window anchored at
`(min(bx*8, W-8), min(byv*8, H-8))`, and the sweep writes a consistent
value to every pixel: the final matrix bit at any pixel a valid block
covers equals that block's own threshold comparison, so overlapping edge
blocks never disagree. -/
theorem block_write_consistent (p : Plane) (bx byv x y : Nat)
    (hW : 40 ≤ p.width) (hH : 40 ≤ p.height)
    (hbx : bx < subWidth p) (hby : byv < subHeight p)
    (hcov : covers p (bx, byv) x y) :
    anchorX p bx = min (bx * 8) (p.width - 8) ∧
    anchorY p byv = min (byv * 8) (p.height - 8) ∧
    binarizeEntireImage p x y =
      decide (p.lum x y ≤ thresholdForBlock p bx byv) := by
  refine ⟨rfl, rfl, ?_⟩
  unfold binarizeEntireImage
  apply foldl_blockStep_write
  · intro q hq hc
    rw [threshold_eq_of_covers p hW hH q (bx, byv)
      ((mem_blockList p q).mp hq).1 ((mem_blockList p q).mp hq).2 hbx hby x y hc hcov]
  · exact ⟨(bx, byv), (mem_blockList p (bx, byv)).mpr ⟨hbx, hby⟩, hcov⟩

/-- Witness for C5: block (0,0) of a 40x40 plane covers pixel (3,3). -/
theorem block_write_consistent_witness :
    (40 ≤ Plane.width ⟨40, 40, fun _ _ => 9⟩ ∧ 40 ≤ Plane.height ⟨40, 40, fun _ _ => 9⟩ ∧
      0 < subWidth ⟨40, 40, fun _ _ => 9⟩ ∧ 0 < subHeight ⟨40, 40, fun _ _ => 9⟩ ∧
      covers ⟨40, 40, fun _ _ => 9⟩ (0, 0) 3 3) ∧
    (anchorX ⟨40, 40, fun _ _ => 9⟩ 0 = min (0 * 8) (Plane.width ⟨40, 40, fun _ _ => 9⟩ - 8) ∧
      anchorY ⟨40, 40, fun _ _ => 9⟩ 0 = min (0 * 8) (Plane.height ⟨40, 40, fun _ _ => 9⟩ - 8) ∧
      binarizeEntireImage ⟨40, 40, fun _ _ => 9⟩ 3 3 =
        decide (Plane.lum ⟨40, 40, fun _ _ => 9⟩ 3 3 ≤
          thresholdForBlock ⟨40, 40, fun _ _ => 9⟩ 0 0)) :=
  ⟨⟨by decide, by decide, by decide, by decide,
      ⟨by decide, by decide, by decide, by decide⟩⟩,
    block_write_consistent ⟨40, 40, fun _ _ => 9⟩ 0 0 3 3 (by decide) (by decide)
      (by decide) (by decide) ⟨by decide, by decide, by decide, by decide⟩⟩

/-- Folding `min` over copies of the same value stays at that value. -/
theorem foldl_min_replicate (n a : Nat) :
    List.foldl min a (List.replicate n a) = a := by
  induction n with
  | zero => rfl
  | succ k ih => simp [List.replicate_succ, ih]

/-- Folding `max` over copies of the same value stays at that value. -/
theorem foldl_max_replicate (n a : Nat) :
    List.foldl max a (List.replicate n a) = a := by
  induction n with
  | zero => rfl
  | succ k ih => simp [List.replicate_succ, ih]

/-- On a constant plane every block window reads 64 copies of `v`. -/
theorem blockSamples_const (W H v bx byv : Nat) :
    blockSamples ⟨W, H, fun _ _ => v⟩ bx byv = List.replicate 64 v := rfl

/-- On a constant plane every block minimum is `v`. -/
theorem blockMin_const (W H v bx byv : Nat) :
    blockMin ⟨W, H, fun _ _ => v⟩ bx byv = v := by
  rw [blockMin, blockSamples_const]
  exact foldl_min_replicate 63 v

/-- On a constant plane every block maximum is `v`. -/
theorem blockMax_const (W H v bx byv : Nat) :
    blockMax ⟨W, H, fun _ _ => v⟩ bx byv = v := by
  rw [blockMax, blockSamples_const]
  exact foldl_max_replicate 63 v

/-- A black-point row over a constant plane is constantly `v / 2` when the
previous row already is. -/
theorem rowBlackPoint_const (W H v byv : Nat) (prev : Nat → Nat)
    (hprev : ∀ i, prev i = v / 2) :
    ∀ bx, rowBlackPoint ⟨W, H, fun _ _ => v⟩ byv prev bx = v / 2 := by
  intro bx
  induction bx with
  | zero =>
    show plainBlackPoint ⟨W, H, fun _ _ => v⟩ 0 byv = v / 2
    unfold plainBlackPoint
    rw [blockMax_const, blockMin_const]
    simp [MIN_DYNAMIC_RANGE]
  | succ a ih =>
    simp only [rowBlackPoint, blockMax_const, blockMin_const, ih, hprev,
      MIN_DYNAMIC_RANGE]
    have h24 : ¬ (24 < v - v) := by omega
    rw [if_neg h24]
    split <;> omega

/-- Every black point of a constant plane is the degenerate `v / 2`. -/
theorem blackPoint_const (W H v : Nat) :
    ∀ byv bx, blackPoint ⟨W, H, fun _ _ => v⟩ bx byv = v / 2 := by
  intro byv
  induction byv with
  | zero =>
    intro bx
    show plainBlackPoint ⟨W, H, fun _ _ => v⟩ bx 0 = v / 2
    unfold plainBlackPoint
    rw [blockMax_const, blockMin_const]
    simp [MIN_DYNAMIC_RANGE]
  | succ b ih =>
    intro bx
    exact rowBlackPoint_const W H v (b + 1) (blackPointRow ⟨W, H, fun _ _ => v⟩ b)
      (fun i => ih i) bx

/-- Every smoothed threshold of a constant plane is `v / 2`. -/
theorem thresholdForBlock_const (W H v bx byv : Nat) :
    thresholdForBlock ⟨W, H, fun _ _ => v⟩ bx byv = v / 2 := by
  unfold thresholdForBlock thresholdAt windowPoints
  have h := blackPoint_const W H v
  simp only [h]
  have hrep : ((List.range 5).flatMap fun _ =>
      List.map (fun _ => v / 2) (List.range 5)) = List.replicate 25 (v / 2) := rfl
  rw [hrep, List.sum_replicate, smul_eq_mul]
  omega

/-- C9: on a constant plane (all pixels `v`) on the adaptive path, every
in-range output bit is white (0) when `v > 0` and black (1) when `v = 0`:
each block is degenerate with black point `v/2` and the comparison
`luminance ≤ threshold` decides each pixel. -/
theorem const_plane_bits (W H v x y : Nat) (hW : 40 ≤ W) (hH : 40 ≤ H)
    (hx : x < W) (hy : y < H) :
    (0 < v → binarizeEntireImage ⟨W, H, fun _ _ => v⟩ x y = false) ∧
    (v = 0 → binarizeEntireImage ⟨W, H, fun _ _ => v⟩ x y = true) := by
  have key : binarizeEntireImage ⟨W, H, fun _ _ => v⟩ x y = decide (v ≤ v / 2) := by
    unfold binarizeEntireImage
    apply foldl_blockStep_write
    · intro q hq hc
      rw [thresholdForBlock_const]
    · obtain ⟨q, h1, h2, hc⟩ := covers_exists ⟨W, H, fun _ _ => v⟩ x y hW hH hx hy
      exact ⟨q, (mem_blockList _ q).mpr ⟨h1, h2⟩, hc⟩
  constructor
  · intro hv
    rw [key]
    simp only [decide_eq_false_iff_not]
    omega
  · intro hv
    subst hv
    rw [key]
    decide

/-- Witness for C9: constant planes with `v = 3` at pixel (0, 0). -/
theorem const_plane_bits_witness :
    (40 ≤ 40 ∧ 0 < 40) ∧
    ((0 < 3 → binarizeEntireImage ⟨40, 40, fun _ _ => 3⟩ 0 0 = false) ∧
      (3 = 0 → binarizeEntireImage ⟨40, 40, fun _ _ => 3⟩ 0 0 = true)) :=
  ⟨⟨by decide, by decide⟩,
    const_plane_bits 40 40 3 0 0 (by decide) (by decide) (by decide) (by decide)⟩

/-- Modelled from the spec: the binarizer state declared in the header
(fields `cached_matrix_`, `cached_row_`, `cached_row_num_`), bound to one
plane, with the external global-histogram collaborator's results carried
as `globalMatrix` / `globalRow`. -/
structure Binarizer where
  plane : Plane
  globalMatrix : Nat → Nat → Bool
  globalRow : Nat → Nat → Bool
  cachedMatrix : Option (Nat → Nat → Bool)
  cachedRow : Option (Nat × (Nat → Bool))

/-- Modelled from the spec: what one full bit-matrix computation produces:
the global-histogram result when `W < MIN_DIMENSION` or
`H < MIN_DIMENSION`, otherwise the adaptive sweep. -/
def computeBlackMatrix (b : Binarizer) : Nat → Nat → Bool :=
  if b.plane.width < MIN_DIMENSION ∨ b.plane.height < MIN_DIMENSION then
    b.globalMatrix
  else binarizeEntireImage b.plane

/-- Modelled from the spec: `getBlackMatrix` (missing body): return the
cached matrix when present, otherwise compute once, store and return. -/
def getBlackMatrix (b : Binarizer) : (Nat → Nat → Bool) × Binarizer :=
  match b.cachedMatrix with
  | some m => (m, b)
  | none => (computeBlackMatrix b, { b with cachedMatrix := some (computeBlackMatrix b) })

/-- Modelled from the spec: `getBlackRow` (missing body): rows are always
delegated to the global-histogram path, with the last-requested row
cached by its index. -/
def getBlackRow (y : Nat) (b : Binarizer) : (Nat → Bool) × Binarizer :=
  match b.cachedRow with
  | some (yr, r) =>
    if yr = y then (r, b)
    else (b.globalRow y, { b with cachedRow := some (y, b.globalRow y) })
  | none => (b.globalRow y, { b with cachedRow := some (y, b.globalRow y) })

/-- A fresh binarizer bound to a source, no caches filled. -/
def mkBinarizer (p : Plane) (gm : Nat → Nat → Bool) (gr : Nat → Nat → Bool) :
    Binarizer :=
  ⟨p, gm, gr, none, none⟩

/-- The row cache, when filled, holds exactly what the global-histogram
path produces for its row index. -/
def rowCacheOK (b : Binarizer) : Prop :=
  ∀ yr r, b.cachedRow = some (yr, r) → r = b.globalRow yr

/-- C6: on a source with `W < 40` or `H < 40`, `getBlackMatrix` on the
hybrid binarizer returns exactly the matrix the global-histogram
binarizer produces on the same source (the adaptive path is not used). -/
theorem getBlackMatrix_small (p : Plane) (gm : Nat → Nat → Bool)
    (gr : Nat → Nat → Bool)
    (h : p.width < MIN_DIMENSION ∨ p.height < MIN_DIMENSION) :
    (getBlackMatrix (mkBinarizer p gm gr)).1 = gm := by
  unfold getBlackMatrix mkBinarizer computeBlackMatrix
  simp [h]

/-- Witness for C6: a 39x64 source. -/
theorem getBlackMatrix_small_witness :
    ((39 : Nat) < MIN_DIMENSION ∨ (64 : Nat) < MIN_DIMENSION) ∧
    (getBlackMatrix (mkBinarizer ⟨39, 64, fun _ _ => 0⟩ (fun x y => x = y)
        (fun _ _ => false))).1 = (fun x y => decide (x = y)) :=
  ⟨Or.inl (by decide),
    getBlackMatrix_small ⟨39, 64, fun _ _ => 0⟩ (fun x y => x = y)
      (fun _ _ => false) (Or.inl (by decide))⟩

/-- C7: the first `getBlackMatrix` call computes and stores the matrix;
the second call returns the very same matrix and leaves the state
untouched, so the filled cache slot is never recomputed or invalidated. -/
theorem getBlackMatrix_cached (b : Binarizer) (h : b.cachedMatrix = none) :
    (getBlackMatrix b).1 = computeBlackMatrix b ∧
    (getBlackMatrix b).2.cachedMatrix = some ((getBlackMatrix b).1) ∧
    getBlackMatrix ((getBlackMatrix b).2) = ((getBlackMatrix b).1, (getBlackMatrix b).2) := by
  unfold getBlackMatrix
  rw [h]
  exact ⟨rfl, rfl, rfl⟩

/-- Witness for C7: a fresh 39x39 binarizer. -/
theorem getBlackMatrix_cached_witness :
    (mkBinarizer ⟨39, 39, fun _ _ => 0⟩ (fun _ _ => true) (fun _ _ => false)).cachedMatrix
        = none ∧
    ((getBlackMatrix (mkBinarizer ⟨39, 39, fun _ _ => 0⟩ (fun _ _ => true)
        (fun _ _ => false))).1 =
      computeBlackMatrix (mkBinarizer ⟨39, 39, fun _ _ => 0⟩ (fun _ _ => true)
        (fun _ _ => false)) ∧
    (getBlackMatrix (mkBinarizer ⟨39, 39, fun _ _ => 0⟩ (fun _ _ => true)
        (fun _ _ => false))).2.cachedMatrix =
      some ((getBlackMatrix (mkBinarizer ⟨39, 39, fun _ _ => 0⟩ (fun _ _ => true)
        (fun _ _ => false))).1) ∧
    getBlackMatrix ((getBlackMatrix (mkBinarizer ⟨39, 39, fun _ _ => 0⟩ (fun _ _ => true)
        (fun _ _ => false))).2) =
      ((getBlackMatrix (mkBinarizer ⟨39, 39, fun _ _ => 0⟩ (fun _ _ => true)
        (fun _ _ => false))).1,
       (getBlackMatrix (mkBinarizer ⟨39, 39, fun _ _ => 0⟩ (fun _ _ => true)
        (fun _ _ => false))).2)) :=
  ⟨rfl,
    getBlackMatrix_cached (mkBinarizer ⟨39, 39, fun _ _ => 0⟩ (fun _ _ => true)
      (fun _ _ => false)) rfl⟩

/-- C8: `getBlackRow y` always returns the bit array the global-histogram
path produces for row `y` of the same source (block-local thresholds are
never used for rows), and the row cache keeps that invariant. -/
theorem getBlackRow_global (y : Nat) (b : Binarizer) (h : rowCacheOK b) :
    (getBlackRow y b).1 = b.globalRow y ∧ rowCacheOK (getBlackRow y b).2 := by
  unfold getBlackRow
  cases hc : b.cachedRow with
  | none =>
    refine ⟨rfl, ?_⟩
    intro yr r hr
    simp only [Option.some.injEq, Prod.mk.injEq] at hr
    obtain ⟨rfl, rfl⟩ := hr
    rfl
  | some pr =>
    obtain ⟨yr0, r0⟩ := pr
    by_cases he : yr0 = y
    · subst he
      simp only [if_pos rfl]
      exact ⟨h yr0 r0 hc, h⟩
    · simp only [if_neg he]
      refine ⟨by trivial, ?_⟩
      intro yr r hr
      simp only [Option.some.injEq, Prod.mk.injEq] at hr
      obtain ⟨rfl, rfl⟩ := hr
      rfl

/-- Witness for C8: a fresh binarizer, row 5. -/
theorem getBlackRow_global_witness :
    rowCacheOK (mkBinarizer ⟨64, 64, fun _ _ => 0⟩ (fun _ _ => false) (fun y x => y ≤ x)) ∧
    ((getBlackRow 5 (mkBinarizer ⟨64, 64, fun _ _ => 0⟩ (fun _ _ => false)
        (fun y x => y ≤ x))).1 =
      Binarizer.globalRow (mkBinarizer ⟨64, 64, fun _ _ => 0⟩ (fun _ _ => false)
        (fun y x => y ≤ x)) 5 ∧
    rowCacheOK ((getBlackRow 5 (mkBinarizer ⟨64, 64, fun _ _ => 0⟩ (fun _ _ => false)
        (fun y x => y ≤ x))).2)) :=
  ⟨fun yr r hr => by simp [mkBinarizer] at hr,
    getBlackRow_global 5 (mkBinarizer ⟨64, 64, fun _ _ => 0⟩ (fun _ _ => false)
      (fun y x => y ≤ x)) (fun yr r hr => by simp [mkBinarizer] at hr)⟩
